import Mathlib

/-!
Verification of the numeric codec in `src/lib/utils/encoding.js`:
fixed-width 64-bit reads and writes, the compact-size varint
(Varint-A) and the continuation-bit varint (Varint-B), together with
their big-integer variants.

Buffers are modelled as a length plus a byte store; a typed-array
store truncates the value to a byte and silently ignores
out-of-range indices.  JS `assert` failures are modelled as
`Fault.bounds` (offset checks) or `Fault.range` (magnitude and
canonicality checks), following the fault taxonomy of the spec.
Arbitrary-precision integers (`BN`) are modelled as `Nat` (the varint
paths only handle non-negative values) or `Int` for the signed
fixed-width writers.
-/

namespace Encoding

/-- The two fault kinds: `bounds` for offset checks, `range` for
magnitude or canonicality checks. -/
inductive Fault where
  | bounds
  | range
deriving DecidableEq

/-- `MAX_SAFE_INTEGER` (2^53 - 1). -/
def MAX_SAFE_INTEGER : Nat := 0x1fffffffffffff

/-- A caller-owned byte buffer: a fixed length and a byte store. -/
structure Buf where
  len : Nat
  data : Nat → Nat

/-- `data[i]`: stored values are bytes, so reads reduce mod 256. -/
def readByte (b : Buf) (i : Nat) : Nat := b.data i % 256

/-- `dst[i] = v`: truncates to a byte; an out-of-range index is
silently ignored (typed-array semantics). -/
def writeByte (b : Buf) (i v : Nat) : Buf :=
  if i < b.len then ⟨b.len, fun j => if j = i then v % 256 else b.data j⟩ else b

/-- A run of sequential stores `dst[off++] = v`. -/
def writeList (b : Buf) : List Nat → Nat → Buf
  | [], _ => b
  | v :: vs, off => writeList (writeByte b off v) vs (off + 1)

/-- A concrete buffer built from a list of bytes. -/
def mkBuf (L : List Nat) : Buf := ⟨L.length, fun i => L.getD i 0⟩

/-- `data.readUInt32LE(off, true)`. -/
def readUInt32LE (b : Buf) (off : Nat) : Nat :=
  readByte b off + readByte b (off + 1) * 0x100 + readByte b (off + 2) * 0x10000 +
    readByte b (off + 3) * 0x1000000

/-- `data.readUInt32BE(off, true)`. -/
def readUInt32BE (b : Buf) (off : Nat) : Nat :=
  readByte b off * 0x1000000 + readByte b (off + 1) * 0x10000 + readByte b (off + 2) * 0x100 +
    readByte b (off + 3)

/-- Result-offset projection of a writer result, for stating concrete
facts without comparing whole buffers. -/
def retOff : Except Fault (Buf × Nat) → Option Nat
  | .ok (_, off) => some off
  | .error _ => none

/-- Projection of the third component (the final value of the caller's
`num` argument) of a `writeVarint2BN` result. -/
def retNum : Except Fault (Buf × Nat × Nat) → Option Nat
  | .ok (_, _, n) => some n
  | .error _ => none

/-! ## Fixed64 -/

/-- `encoding._readU64(data, off, force53, be)`: split the eight bytes
into two 32-bit halves, optionally mask the high half with `0x1fffff`
(that is, mod 2^21), and assert the safe range.  For `hi < 2^32` the
test `(hi & 0xffe00000) === 0` is exactly `hi < 0x200000`. -/
def _readU64 (b : Buf) (off : Nat) (force53 be : Bool) : Except Fault Nat :=
  let hi0 := if be then readUInt32BE b off else readUInt32LE b (off + 4)
  let lo := if be then readUInt32BE b (off + 4) else readUInt32LE b off
  let hi := if force53 then hi0 % 0x200000 else hi0
  if hi < 0x200000 then .ok (hi * 0x100000000 + lo) else .error .range

def readU64 (b : Buf) (off : Nat) : Except Fault Nat := _readU64 b off false false

def readU64BE (b : Buf) (off : Nat) : Except Fault Nat := _readU64 b off false true

def readU53 (b : Buf) (off : Nat) : Except Fault Nat := _readU64 b off true false

def readU53BE (b : Buf) (off : Nat) : Except Fault Nat := _readU64 b off true true

/-- `encoding._read64(data, off, force53, be)`: the top bit of `hi`
selects the negative branch; `~x >>> 0` on a 32-bit value is
`0xffffffff - x`. -/
def _read64 (b : Buf) (off : Nat) (force53 be : Bool) : Except Fault Int :=
  let hi0 := if be then readUInt32BE b off else readUInt32LE b (off + 4)
  let lo0 := if be then readUInt32BE b (off + 4) else readUInt32LE b off
  if 0x80000000 ≤ hi0 then
    let hi1 := 0xffffffff - hi0
    let lo1 := 0xffffffff - lo0
    let hi := if force53 then hi1 % 0x200000 else hi1
    if hi < 0x200000 then .ok (-((hi : Int) * 0x100000000 + (lo1 : Int) + 1))
    else .error .range
  else
    let hi := if force53 then hi0 % 0x200000 else hi0
    if hi < 0x200000 then .ok ((hi : Int) * 0x100000000 + (lo0 : Int))
    else .error .range

def read64 (b : Buf) (off : Nat) : Except Fault Int := _read64 b off false false

def read64BE (b : Buf) (off : Nat) : Except Fault Int := _read64 b off false true

/-- `encoding._write64(dst, num, off, be)`: a negative number is
first mapped to `-num - 1`, the magnitude is asserted against
`MAX_SAFE_INTEGER`, split into 32-bit halves, bit-inverted when
negative (`~x >>> 0` is `0xffffffff - x`), and the eight bytes are
stored in the requested order.  The shift/mask byte extractions on a
32-bit half are the corresponding divisions and remainders. -/
def _write64 (b : Buf) (num : Int) (off : Nat) (be : Bool) : Except Fault (Buf × Nat) :=
  let m : Nat := if num < 0 then (-num - 1).toNat else num.toNat
  if m ≤ 0x1fffffffffffff then
    let lo0 := m % 0x100000000
    let hi0 := (m - lo0) / 0x100000000
    let lo := if num < 0 then 0xffffffff - lo0 else lo0
    let hi := if num < 0 then 0xffffffff - hi0 else hi0
    let bytes : List Nat :=
      if be then
        [hi / 0x1000000, hi / 0x10000 % 0x100, hi / 0x100 % 0x100, hi % 0x100,
         lo / 0x1000000, lo / 0x10000 % 0x100, lo / 0x100 % 0x100, lo % 0x100]
      else
        [lo % 0x100, lo / 0x100 % 0x100, lo / 0x10000 % 0x100, lo / 0x1000000,
         hi % 0x100, hi / 0x100 % 0x100, hi / 0x10000 % 0x100, hi / 0x1000000]
    .ok (writeList b bytes off, off + 8)
  else .error .range

def writeU64 (b : Buf) (num : Int) (off : Nat) : Except Fault (Buf × Nat) :=
  _write64 b num off false

def writeU64BE (b : Buf) (num : Int) (off : Nat) : Except Fault (Buf × Nat) :=
  _write64 b num off true

def write64 (b : Buf) (num : Int) (off : Nat) : Except Fault (Buf × Nat) :=
  _write64 b num off false

def write64BE (b : Buf) (num : Int) (off : Nat) : Except Fault (Buf × Nat) :=
  _write64 b num off true

/-- `encoding.readU64BN(data, off)`: `new BN(data.slice(off, off+8), 'le')`,
the little-endian value of the eight bytes. -/
def readU64BN (b : Buf) (off : Nat) : Nat :=
  readByte b off + readByte b (off + 1) * 0x100 + readByte b (off + 2) * 0x10000 +
    readByte b (off + 3) * 0x1000000 + readByte b (off + 4) * 0x100000000 +
    readByte b (off + 5) * 0x10000000000 + readByte b (off + 6) * 0x1000000000000 +
    readByte b (off + 7) * 0x100000000000000

/-! ## Varint-A (compact-size) -/

/-- `encoding.readVarint(data, off)`: dispatch on the tag byte, check
bounds for the declared size, and reject non-minimal encodings. -/
def readVarint (b : Buf) (off : Nat) : Except Fault (Nat × Nat) :=
  if off < b.len then
    if readByte b off = 0xff then
      if off + 9 ≤ b.len then
        match _readU64 b (off + 1) false false with
        | .error e => .error e
        | .ok value => if 0xffffffff < value then .ok (9, value) else .error .range
      else .error .bounds
    else if readByte b off = 0xfe then
      if off + 5 ≤ b.len then
        let value := readUInt32LE b (off + 1)
        if 0xffff < value then .ok (5, value) else .error .range
      else .error .bounds
    else if readByte b off = 0xfd then
      if off + 3 ≤ b.len then
        let value := readByte b (off + 1) + readByte b (off + 2) * 0x100
        if 0xfd ≤ value then .ok (3, value) else .error .range
      else .error .bounds
    else .ok (1, readByte b off)
  else .error .bounds

/-- `encoding.writeVarint(dst, num, off)`: no bounds checks; the
8-byte tail goes through `writeU64`. -/
def writeVarint (b : Buf) (num off : Nat) : Except Fault (Buf × Nat) :=
  if num < 0xfd then .ok (writeByte b off (num % 0x100), off + 1)
  else if num ≤ 0xffff then
    .ok (writeList b [0xfd, num % 0x100, num / 0x100 % 0x100] off, off + 3)
  else if num ≤ 0xffffffff then
    .ok (writeList b [0xfe, num % 0x100, num / 0x100 % 0x100, num / 0x10000 % 0x100,
          num / 0x1000000] off, off + 5)
  else
    match _write64 (writeByte b off 0xff) (num : Int) (off + 1) false with
    | .ok r => .ok r
    | .error e => .error e

/-- `encoding.skipVarint(data, off)`: size from the tag byte alone. -/
def skipVarint (b : Buf) (off : Nat) : Except Fault Nat :=
  if off < b.len then
    .ok (if readByte b off = 0xff then 9
         else if readByte b off = 0xfe then 5
         else if readByte b off = 0xfd then 3
         else 1)
  else .error .bounds

/-- `encoding.sizeVarint(num)`. -/
def sizeVarint (num : Nat) : Nat :=
  if num < 0xfd then 1
  else if num ≤ 0xffff then 3
  else if num ≤ 0xffffffff then 5
  else 9

/-- `encoding.readVarintBN(data, off)`: only the 9-byte form is
special-cased; the payload is read with `readU64BN`, and
`value.bitLength() > 32` is `0xffffffff < value`. -/
def readVarintBN (b : Buf) (off : Nat) : Except Fault (Nat × Nat) :=
  if off < b.len then
    if readByte b off = 0xff then
      if off + 9 ≤ b.len then
        let value := readU64BN b (off + 1)
        if 0xffffffff < value then .ok (9, value) else .error .range
      else .error .bounds
    else readVarint b off
  else .error .bounds

/-! ## Varint-B (continuation-bit) -/

/-- The decode loop of `encoding.readVarint2`.  The loop advances
`off` by one per iteration and raises the bounds fault as soon as
`off` reaches `data.length`, so running it with fuel
`data.length - off` is exact; the fuel-0 case is that bounds fault.
Each iteration: bounds assert, read `ch`, assert
`num < 0x3fffffffffff`, then `num = num * 0x80 + (ch & 0x7f)`, stop on
a clear continuation bit, else `num++`. -/
def rv2Go (b : Buf) : Nat → Nat → Nat → Nat → Except Fault (Nat × Nat)
  | _, _, _, 0 => .error .bounds
  | off, num, size, fuel + 1 =>
    if off < b.len then
      let ch := readByte b off
      if num < 0x3fffffffffff then
        if ch < 0x80 then .ok (size + 1, num * 0x80 + ch % 0x80)
        else rv2Go b (off + 1) (num * 0x80 + ch % 0x80 + 1) (size + 1) fuel
      else .error .range
    else .error .bounds

/-- `encoding.readVarint2(data, off)`. -/
def readVarint2 (b : Buf) (off : Nat) : Except Fault (Nat × Nat) :=
  rv2Go b off 0 0 (b.len - off)

/-- The digit array `tmp` built by `encoding.writeVarint2`: entry
`len` is `(num & 0x7f) | (len ? 0x80 : 0x00)`, and the loop continues
with `num = ((num - (num % 0x80)) / 0x80) - 1` while `num > 0x7f`. -/
def varint2Tmp (num len : Nat) : List Nat :=
  if num ≤ 0x7f then [num % 0x80 + (if len = 0 then 0 else 0x80)]
  else (num % 0x80 + (if len = 0 then 0 else 0x80)) ::
    varint2Tmp (num / 0x80 - 1) (len + 1)
termination_by num
decreasing_by omega

/-- `encoding.writeVarint2(dst, num, off)`: build `tmp`, assert
`off + len <= dst.length` with `len` the final loop counter
(`tmp.length - 1`), then emit `tmp[len] .. tmp[0]`, i.e. the reversal
of `tmp`, returning the offset advanced by `tmp.length`.  On the
safe-integer domain (`num ≤ 2^53 - 1`) the source's float arithmetic
is exact, so it coincides with this Nat arithmetic; statements about
this function stay within that domain. -/
def writeVarint2 (b : Buf) (num off : Nat) : Except Fault (Buf × Nat) :=
  let tmp := varint2Tmp num 0
  if off + (tmp.length - 1) ≤ b.len then
    .ok (writeList b tmp.reverse off, off + tmp.length)
  else .error .bounds

/-- `encoding.sizeVarint2(num)`.  As for `writeVarint2`, the source's
float arithmetic is exact on the safe-integer domain and statements
stay within it. -/
def sizeVarint2 (num : Nat) : Nat :=
  if num ≤ 0x7f then 1 else sizeVarint2 (num / 0x80 - 1) + 1
termination_by num
decreasing_by omega

/-- The first (native-number) loop of `encoding.readVarint2BN`:
`while (num < 0x3fffffffffff)` with the same body as `readVarint2`
but no range assert; when the condition fails it falls through to the
big-integer loop.  Fuel is `data.length - off`, exact as in `rv2Go`. -/
def rv2BNLoop2 (b : Buf) : Nat → Nat → Nat → Nat → Except Fault (Nat × Nat)
  | _, _, _, 0 => .error .bounds
  | off, num, size, fuel + 1 =>
    if off < b.len then
      let ch := readByte b off
      -- `assert(num.bitLength() <= 64)` is `num < 2^64` for a BN ≥ 0.
      if num < 0x10000000000000000 then
        if ch < 0x80 then .ok (size + 1, num * 0x80 + ch % 0x80)
        else rv2BNLoop2 b (off + 1) (num * 0x80 + ch % 0x80 + 1) (size + 1) fuel
      else .error .range
    else .error .bounds

def rv2BNLoop1 (b : Buf) : Nat → Nat → Nat → Nat → Except Fault (Nat × Nat)
  | off, num, size, fuel =>
    if num < 0x3fffffffffff then
      match fuel with
      | 0 => .error .bounds
      | fuel + 1 =>
        if off < b.len then
          let ch := readByte b off
          if ch < 0x80 then .ok (size + 1, num * 0x80 + ch % 0x80)
          else rv2BNLoop1 b (off + 1) (num * 0x80 + ch % 0x80 + 1) (size + 1) fuel
        else .error .bounds
    else rv2BNLoop2 b off num size fuel

/-- `encoding.readVarint2BN(data, off)`. -/
def readVarint2BN (b : Buf) (off : Nat) : Except Fault (Nat × Nat) :=
  rv2BNLoop1 b off 0 0 (b.len - off)

/-- The digit loop of `encoding.writeVarint2BN` on the big-integer
path.  It mutates `num` in place (`num.iushrn(7).isubn(1)`), so the
final value of the caller's `num` is returned alongside the digit
array: `num.words[0] & 0x7f` is `num % 0x80`. -/
def wv2BNLoop (num len : Nat) : List Nat × Nat :=
  if num ≤ 0x7f then ([num % 0x80 + (if len = 0 then 0 else 0x80)], num)
  else
    let r := wv2BNLoop (num / 0x80 - 1) (len + 1)
    ((num % 0x80 + (if len = 0 then 0 else 0x80)) :: r.1, r.2)
termination_by num
decreasing_by omega

/-- `encoding.writeVarint2BN(dst, num, off)`.  When
`num.bitLength() <= 53` (that is, `num < 2^53`) the source calls
`encoding.writeVarint2(dst, num.toNumber())` WITHOUT the `off`
argument, so inside `writeVarint2` the bounds assert evaluates
`undefined + len <= dst.length`, which is `NaN <= dst.length`, always
false: the call always throws that assert, writing nothing.  The
result carries the final value of the caller's `num` (mutated on the
big path) as its third component. -/
def writeVarint2BN (b : Buf) (num off : Nat) : Except Fault (Buf × Nat × Nat) :=
  if num < 0x20000000000000 then .error .bounds
  else
    let r := wv2BNLoop num 0
    if off + (r.1.length - 1) ≤ b.len then
      .ok (writeList b r.1.reverse off, (off + r.1.length, r.2))
    else .error .bounds

/-- The digit loop of `encoding.sizeVarint2BN` on the big-integer path
(the source clones `num` first, so no mutation is visible). -/
def sizeVarint2BNBig (num : Nat) : Nat :=
  if num ≤ 0x7f then 1 else sizeVarint2BNBig (num / 0x80 - 1) + 1
termination_by num
decreasing_by omega

/-- `encoding.sizeVarint2BN(num)`: when `num.bitLength() <= 53` the
source returns `encoding.sizeVarint(num.toNumber())` — the
compact-size (Varint-A) size, not `sizeVarint2`. -/
def sizeVarint2BN (num : Nat) : Nat :=
  if num < 0x20000000000000 then sizeVarint num else sizeVarint2BNBig num

/-- Modelled from the spec: the decoder that claim C7 describes, which
"fails exactly when the accumulated value would exceed 2^53-1": the
same loop as `readVarint2`, but the range fault is raised only when
the value just accumulated (including the `+1` applied under a set
continuation bit) exceeds `MAX_SAFE_INTEGER`.  Used solely to compare
the claim's wording with `readVarint2`. -/
def rv2SpecGo (b : Buf) : Nat → Nat → Nat → Nat → Except Fault (Nat × Nat)
  | _, _, _, 0 => .error .bounds
  | off, num, size, fuel + 1 =>
    if off < b.len then
      let ch := readByte b off
      let num2 := num * 0x80 + ch % 0x80
      if 0x1fffffffffffff < num2 then .error .range
      else if ch < 0x80 then .ok (size + 1, num2)
      else if 0x1fffffffffffff < num2 + 1 then .error .range
      else rv2SpecGo b (off + 1) (num2 + 1) (size + 1) fuel
    else .error .bounds

/-- Modelled from the spec: entry point of `rv2SpecGo`. -/
def readVarint2SpecGuard (b : Buf) (off : Nat) : Except Fault (Nat × Nat) :=
  rv2SpecGo b off 0 0 (b.len - off)

/-! ## Payload helpers for statements about Varint-A -/

/-- The 2-byte little-endian payload after a `0xfd` tag. -/
def varintPayload2 (b : Buf) (off : Nat) : Nat :=
  readByte b (off + 1) + readByte b (off + 2) * 0x100

/-- The 4-byte little-endian payload after a `0xfe` tag. -/
def varintPayload4 (b : Buf) (off : Nat) : Nat := readUInt32LE b (off + 1)

/-- The 8-byte little-endian payload after a `0xff` tag. -/
def varintPayload8 (b : Buf) (off : Nat) : Nat := readU64BN b (off + 1)

instance {ε α : Type} [DecidableEq ε] [DecidableEq α] : DecidableEq (Except ε α) := fun x y =>
  match x, y with
  | .ok a, .ok b => decidable_of_iff (a = b) (by simp)
  | .error a, .error b => decidable_of_iff (a = b) (by simp)
  | .ok _, .error _ => isFalse (by simp)
  | .error _, .ok _ => isFalse (by simp)

/-! ## Buffer infrastructure lemmas -/

theorem writeByte_len (b : Buf) (i v : Nat) : (writeByte b i v).len = b.len := by
  unfold writeByte; split <;> rfl

theorem writeList_len (L : List Nat) : ∀ (b : Buf) (off : Nat),
    (writeList b L off).len = b.len := by
  induction L with
  | nil => intro b off; rfl
  | cons v vs ih => intro b off; simp only [writeList]; rw [ih, writeByte_len]

theorem readByte_writeByte_self (b : Buf) (i v : Nat) (h : i < b.len) :
    readByte (writeByte b i v) i = v % 256 := by
  unfold readByte writeByte
  rw [if_pos h]
  simp

theorem readByte_writeByte_ne (b : Buf) (i v j : Nat) (h : j ≠ i) :
    readByte (writeByte b i v) j = readByte b j := by
  unfold readByte writeByte
  split
  · simp [h]
  · rfl

theorem readByte_writeList_lt (L : List Nat) : ∀ (b : Buf) (off j : Nat), j < off →
    readByte (writeList b L off) j = readByte b j := by
  induction L with
  | nil => intro b off j _; rfl
  | cons v vs ih =>
    intro b off j h
    simp only [writeList]
    rw [ih _ _ _ (by omega), readByte_writeByte_ne _ _ _ _ (by omega)]

theorem readByte_writeList_get (L : List Nat) : ∀ (b : Buf) (off i : Nat), i < L.length →
    off + L.length ≤ b.len → readByte (writeList b L off) (off + i) = L.getD i 0 % 256 := by
  induction L with
  | nil => intro b off i h; simp at h
  | cons v vs ih =>
    intro b off i hi hlen
    simp only [List.length_cons] at hi hlen
    match i with
    | 0 =>
      simp only [writeList, Nat.add_zero, List.getD_cons_zero]
      rw [readByte_writeList_lt _ _ _ _ (by omega)]
      exact readByte_writeByte_self _ _ _ (by omega)
    | Nat.succ k =>
      have e : off + (k + 1) = (off + 1) + k := by omega
      rw [e]
      simp only [writeList, List.getD_cons_succ]
      exact ih _ _ _ (by omega) (by rw [writeByte_len]; omega)

theorem readByte_lt (b : Buf) (i : Nat) : readByte b i < 256 :=
  Nat.mod_lt _ (by norm_num)

theorem readUInt32LE_lt (b : Buf) (off : Nat) : readUInt32LE b off < 0x100000000 := by
  unfold readUInt32LE
  have h0 := readByte_lt b off
  have h1 := readByte_lt b (off + 1)
  have h2 := readByte_lt b (off + 2)
  have h3 := readByte_lt b (off + 3)
  omega

theorem readUInt32BE_lt (b : Buf) (off : Nat) : readUInt32BE b off < 0x100000000 := by
  unfold readUInt32BE
  have h0 := readByte_lt b off
  have h1 := readByte_lt b (off + 1)
  have h2 := readByte_lt b (off + 2)
  have h3 := readByte_lt b (off + 3)
  omega

/-- Reading back the two 32-bit halves of an 8-byte run of stores. -/
theorem bytes8_reads (b : Buf) (x0 x1 x2 x3 x4 x5 x6 x7 off : Nat) (hb : off + 8 ≤ b.len) :
    readUInt32LE (writeList b [x0, x1, x2, x3, x4, x5, x6, x7] off) off
        = x0 % 256 + x1 % 256 * 0x100 + x2 % 256 * 0x10000 + x3 % 256 * 0x1000000 ∧
    readUInt32LE (writeList b [x0, x1, x2, x3, x4, x5, x6, x7] off) (off + 4)
        = x4 % 256 + x5 % 256 * 0x100 + x6 % 256 * 0x10000 + x7 % 256 * 0x1000000 ∧
    readUInt32BE (writeList b [x0, x1, x2, x3, x4, x5, x6, x7] off) off
        = x0 % 256 * 0x1000000 + x1 % 256 * 0x10000 + x2 % 256 * 0x100 + x3 % 256 ∧
    readUInt32BE (writeList b [x0, x1, x2, x3, x4, x5, x6, x7] off) (off + 4)
        = x4 % 256 * 0x1000000 + x5 % 256 * 0x10000 + x6 % 256 * 0x100 + x7 % 256 := by
  have r : ∀ i, i < 8 → readByte (writeList b [x0, x1, x2, x3, x4, x5, x6, x7] off) (off + i)
      = [x0, x1, x2, x3, x4, x5, x6, x7].getD i 0 % 256 := by
    intro i hi
    exact readByte_writeList_get _ b off i (by simpa using hi) (by simpa using hb)
  have r0 := r 0 (by omega)
  have r1 := r 1 (by omega)
  have r2 := r 2 (by omega)
  have r3 := r 3 (by omega)
  have r4 := r 4 (by omega)
  have r5 := r 5 (by omega)
  have r6 := r 6 (by omega)
  have r7 := r 7 (by omega)
  rw [Nat.add_zero] at r0
  have g0 : ([x0, x1, x2, x3, x4, x5, x6, x7] : List Nat).getD 0 0 = x0 := rfl
  have g1 : ([x0, x1, x2, x3, x4, x5, x6, x7] : List Nat).getD 1 0 = x1 := rfl
  have g2 : ([x0, x1, x2, x3, x4, x5, x6, x7] : List Nat).getD 2 0 = x2 := rfl
  have g3 : ([x0, x1, x2, x3, x4, x5, x6, x7] : List Nat).getD 3 0 = x3 := rfl
  have g4 : ([x0, x1, x2, x3, x4, x5, x6, x7] : List Nat).getD 4 0 = x4 := rfl
  have g5 : ([x0, x1, x2, x3, x4, x5, x6, x7] : List Nat).getD 5 0 = x5 := rfl
  have g6 : ([x0, x1, x2, x3, x4, x5, x6, x7] : List Nat).getD 6 0 = x6 := rfl
  have g7 : ([x0, x1, x2, x3, x4, x5, x6, x7] : List Nat).getD 7 0 = x7 := rfl
  rw [g0] at r0
  rw [g1] at r1
  rw [g2] at r2
  rw [g3] at r3
  rw [g4] at r4
  rw [g5] at r5
  rw [g6] at r6
  rw [g7] at r7
  have e5 : off + 4 + 1 = off + 5 := by omega
  have e6 : off + 4 + 2 = off + 6 := by omega
  have e7 : off + 4 + 3 = off + 7 := by omega
  refine ⟨?_, ?_, ?_, ?_⟩
  · unfold readUInt32LE
    rw [r0, r1, r2, r3]
  · unfold readUInt32LE
    rw [e5, e6, e7, r4, r5, r6, r7]
  · unfold readUInt32BE
    rw [r0, r1, r2, r3]
  · unfold readUInt32BE
    rw [e5, e6, e7, r4, r5, r6, r7]

/-! ## Fixed64 round-trip lemmas -/

/-- In `_write64`, `hi = (num - lo) / 2^32` is just `num / 2^32`. -/
theorem sub_mod_div (n : Nat) : (n - n % 0x100000000) / 0x100000000 = n / 0x100000000 := by
  have h2 : n - n % 0x100000000 = 0x100000000 * (n / 0x100000000) := by omega
  rw [h2, Nat.mul_div_cancel_left _ (by norm_num)]

theorem write64_nonneg_le (b : Buf) (n off : Nat) (hn : n ≤ 0x1fffffffffffff) :
    _write64 b (n : Int) off false =
      .ok (writeList b
        [n % 0x100000000 % 0x100, n % 0x100000000 / 0x100 % 0x100,
         n % 0x100000000 / 0x10000 % 0x100, n % 0x100000000 / 0x1000000,
         n / 0x100000000 % 0x100,
         n / 0x100000000 / 0x100 % 0x100,
         n / 0x100000000 / 0x10000 % 0x100,
         n / 0x100000000 / 0x1000000] off, off + 8) := by
  have hcond : ¬((n : Int) < 0) := by omega
  simp only [_write64, if_neg hcond, Int.toNat_natCast, if_pos hn, Bool.false_eq_true,
    if_false, if_true, eq_self_iff_true]
  rw [sub_mod_div]

theorem write64_nonneg_be (b : Buf) (n off : Nat) (hn : n ≤ 0x1fffffffffffff) :
    _write64 b (n : Int) off true =
      .ok (writeList b
        [n / 0x100000000 / 0x1000000,
         n / 0x100000000 / 0x10000 % 0x100,
         n / 0x100000000 / 0x100 % 0x100,
         n / 0x100000000 % 0x100,
         n % 0x100000000 / 0x1000000, n % 0x100000000 / 0x10000 % 0x100,
         n % 0x100000000 / 0x100 % 0x100, n % 0x100000000 % 0x100] off, off + 8) := by
  have hcond : ¬((n : Int) < 0) := by omega
  simp only [_write64, if_neg hcond, Int.toNat_natCast, if_pos hn, Bool.false_eq_true,
    if_false, if_true, eq_self_iff_true]
  rw [sub_mod_div]

theorem write64_neg_le (b : Buf) (off : Nat) (m : Int) (hm : m < 0)
    (h1 : -0x1fffffffffffff ≤ m) :
    _write64 b m off false =
      .ok (writeList b
        [(0xffffffff - (-m - 1).toNat % 0x100000000) % 0x100,
         (0xffffffff - (-m - 1).toNat % 0x100000000) / 0x100 % 0x100,
         (0xffffffff - (-m - 1).toNat % 0x100000000) / 0x10000 % 0x100,
         (0xffffffff - (-m - 1).toNat % 0x100000000) / 0x1000000,
         (0xffffffff - (-m - 1).toNat / 0x100000000) % 0x100,
         (0xffffffff - (-m - 1).toNat / 0x100000000) / 0x100 % 0x100,
         (0xffffffff - (-m - 1).toNat / 0x100000000) / 0x10000 % 0x100,
         (0xffffffff - (-m - 1).toNat / 0x100000000) / 0x1000000]
        off, off + 8) := by
  have hk : (-m - 1).toNat ≤ 0x1fffffffffffff := by omega
  simp only [_write64, if_pos hm, if_pos hk, Bool.false_eq_true, if_false, if_true,
    eq_self_iff_true]
  rw [sub_mod_div]

theorem write64_neg_be (b : Buf) (off : Nat) (m : Int) (hm : m < 0)
    (h1 : -0x1fffffffffffff ≤ m) :
    _write64 b m off true =
      .ok (writeList b
        [(0xffffffff - (-m - 1).toNat / 0x100000000) / 0x1000000,
         (0xffffffff - (-m - 1).toNat / 0x100000000) / 0x10000 % 0x100,
         (0xffffffff - (-m - 1).toNat / 0x100000000) / 0x100 % 0x100,
         (0xffffffff - (-m - 1).toNat / 0x100000000) % 0x100,
         (0xffffffff - (-m - 1).toNat % 0x100000000) / 0x1000000,
         (0xffffffff - (-m - 1).toNat % 0x100000000) / 0x10000 % 0x100,
         (0xffffffff - (-m - 1).toNat % 0x100000000) / 0x100 % 0x100,
         (0xffffffff - (-m - 1).toNat % 0x100000000) % 0x100]
        off, off + 8) := by
  have hk : (-m - 1).toNat ≤ 0x1fffffffffffff := by omega
  simp only [_write64, if_pos hm, if_pos hk, Bool.false_eq_true, if_false, if_true,
    eq_self_iff_true]
  rw [sub_mod_div]

/-- Reading the two 32-bit halves back from the byte list `_write64`
stores little-endian, for abstract half values `LO` and `HI`. -/
theorem read_halves_le (b : Buf) (off LO HI : Nat) (hb : off + 8 ≤ b.len)
    (hLO : LO < 0x100000000) (hHI : HI < 0x100000000) :
    readUInt32LE (writeList b
        [LO % 0x100, LO / 0x100 % 0x100, LO / 0x10000 % 0x100, LO / 0x1000000,
         HI % 0x100, HI / 0x100 % 0x100, HI / 0x10000 % 0x100, HI / 0x1000000] off) off = LO ∧
    readUInt32LE (writeList b
        [LO % 0x100, LO / 0x100 % 0x100, LO / 0x10000 % 0x100, LO / 0x1000000,
         HI % 0x100, HI / 0x100 % 0x100, HI / 0x10000 % 0x100, HI / 0x1000000] off) (off + 4)
      = HI := by
  obtain ⟨h0, h4, -, -⟩ := bytes8_reads b (LO % 0x100) (LO / 0x100 % 0x100)
    (LO / 0x10000 % 0x100) (LO / 0x1000000) (HI % 0x100) (HI / 0x100 % 0x100)
    (HI / 0x10000 % 0x100) (HI / 0x1000000) off hb
  constructor
  · rw [h0]; clear h4; omega
  · rw [h4]; clear h0; omega

/-- Reading the two 32-bit halves back from the byte list `_write64`
stores big-endian, for abstract half values `LO` and `HI`. -/
theorem read_halves_be (b : Buf) (off LO HI : Nat) (hb : off + 8 ≤ b.len)
    (hLO : LO < 0x100000000) (hHI : HI < 0x100000000) :
    readUInt32BE (writeList b
        [HI / 0x1000000, HI / 0x10000 % 0x100, HI / 0x100 % 0x100, HI % 0x100,
         LO / 0x1000000, LO / 0x10000 % 0x100, LO / 0x100 % 0x100, LO % 0x100] off) off = HI ∧
    readUInt32BE (writeList b
        [HI / 0x1000000, HI / 0x10000 % 0x100, HI / 0x100 % 0x100, HI % 0x100,
         LO / 0x1000000, LO / 0x10000 % 0x100, LO / 0x100 % 0x100, LO % 0x100] off) (off + 4)
      = LO := by
  obtain ⟨-, -, h0, h4⟩ := bytes8_reads b (HI / 0x1000000) (HI / 0x10000 % 0x100)
    (HI / 0x100 % 0x100) (HI % 0x100) (LO / 0x1000000) (LO / 0x10000 % 0x100)
    (LO / 0x100 % 0x100) (LO % 0x100) off hb
  constructor
  · rw [h0]; clear h4; omega
  · rw [h4]; clear h0; omega

theorem u64_roundtrip (be : Bool) (b : Buf) (off n : Nat) (hb : off + 8 ≤ b.len)
    (hn : n ≤ 0x1fffffffffffff) :
    ∃ b1, _write64 b (n : Int) off be = .ok (b1, off + 8) ∧
      _readU64 b1 off false be = .ok n := by
  cases be with
  | false =>
    refine ⟨_, write64_nonneg_le b n off hn, ?_⟩
    obtain ⟨hr0, hr4⟩ := read_halves_le b off (n % 0x100000000) (n / 0x100000000) hb
      (by omega) (by omega)
    simp only [_readU64, Bool.false_eq_true, if_false, if_true, eq_self_iff_true]
    rw [hr0, hr4]
    rw [if_pos (by omega)]
    exact congrArg Except.ok (by omega)
  | true =>
    refine ⟨_, write64_nonneg_be b n off hn, ?_⟩
    obtain ⟨hr0, hr4⟩ := read_halves_be b off (n % 0x100000000) (n / 0x100000000) hb
      (by omega) (by omega)
    simp only [_readU64, Bool.false_eq_true, if_false, if_true, eq_self_iff_true]
    rw [hr0, hr4]
    rw [if_pos (by omega)]
    exact congrArg Except.ok (by omega)

theorem i64_roundtrip (be : Bool) (b : Buf) (off : Nat) (m : Int) (hb : off + 8 ≤ b.len)
    (h1 : -0x1fffffffffffff ≤ m) (h2 : m ≤ 0x1fffffffffffff) :
    ∃ b1, _write64 b m off be = .ok (b1, off + 8) ∧ _read64 b1 off false be = .ok m := by
  rcases lt_or_le m 0 with hm | hm
  · have hk : (-m - 1).toNat ≤ 0x1fffffffffffff := by omega
    cases be with
    | false =>
      refine ⟨_, write64_neg_le b off m hm h1, ?_⟩
      obtain ⟨hr0, hr4⟩ := read_halves_le b off
        (0xffffffff - (-m - 1).toNat % 0x100000000)
        (0xffffffff - (-m - 1).toNat / 0x100000000) hb (by omega) (by omega)
      simp only [_read64, Bool.false_eq_true, if_false, if_true, eq_self_iff_true]
      rw [hr0, hr4]
      rw [if_pos (by omega), if_pos (by omega)]
      exact congrArg Except.ok (by omega)
    | true =>
      refine ⟨_, write64_neg_be b off m hm h1, ?_⟩
      obtain ⟨hr0, hr4⟩ := read_halves_be b off
        (0xffffffff - (-m - 1).toNat % 0x100000000)
        (0xffffffff - (-m - 1).toNat / 0x100000000) hb (by omega) (by omega)
      simp only [_read64, Bool.false_eq_true, if_false, if_true, eq_self_iff_true]
      rw [hr0, hr4]
      rw [if_pos (by omega), if_pos (by omega)]
      exact congrArg Except.ok (by omega)
  · have hmn : m = ((m.toNat : Nat) : Int) := (Int.toNat_of_nonneg hm).symm
    have hn2 : m.toNat ≤ 0x1fffffffffffff := by omega
    cases be with
    | false =>
      rw [hmn]
      refine ⟨_, write64_nonneg_le b m.toNat off hn2, ?_⟩
      obtain ⟨hr0, hr4⟩ := read_halves_le b off (m.toNat % 0x100000000)
        (m.toNat / 0x100000000) hb (by omega) (by omega)
      simp only [_read64, Bool.false_eq_true, if_false, if_true, eq_self_iff_true]
      rw [hr0, hr4]
      rw [if_neg (by omega), if_pos (by omega)]
      exact congrArg Except.ok (by omega)
    | true =>
      rw [hmn]
      refine ⟨_, write64_nonneg_be b m.toNat off hn2, ?_⟩
      obtain ⟨hr0, hr4⟩ := read_halves_be b off (m.toNat % 0x100000000)
        (m.toNat / 0x100000000) hb (by omega) (by omega)
      simp only [_read64, Bool.false_eq_true, if_false, if_true, eq_self_iff_true]
      rw [hr0, hr4]
      rw [if_neg (by omega), if_pos (by omega)]
      exact congrArg Except.ok (by omega)


/-! ## Varint-B lemmas -/

theorem rv2Go_zero (b : Buf) (off num size : Nat) :
    rv2Go b off num size 0 = .error .bounds := rfl

theorem rv2Go_succ (b : Buf) (off num size fuel : Nat) :
    rv2Go b off num size (fuel + 1) =
      if off < b.len then
        if num < 0x3fffffffffff then
          if readByte b off < 0x80 then .ok (size + 1, num * 0x80 + readByte b off % 0x80)
          else rv2Go b (off + 1) (num * 0x80 + readByte b off % 0x80 + 1) (size + 1) fuel
        else .error .range
      else .error .bounds := rfl

theorem rv2BNLoop2_zero (b : Buf) (off num size : Nat) :
    rv2BNLoop2 b off num size 0 = .error .bounds := rfl

theorem rv2BNLoop2_succ (b : Buf) (off num size fuel : Nat) :
    rv2BNLoop2 b off num size (fuel + 1) =
      if off < b.len then
        if num < 0x10000000000000000 then
          if readByte b off < 0x80 then .ok (size + 1, num * 0x80 + readByte b off % 0x80)
          else rv2BNLoop2 b (off + 1) (num * 0x80 + readByte b off % 0x80 + 1) (size + 1) fuel
        else .error .range
      else .error .bounds := rfl

theorem rv2BNLoop1_zero (b : Buf) (off num size : Nat) :
    rv2BNLoop1 b off num size 0 =
      if num < 0x3fffffffffff then .error .bounds
      else rv2BNLoop2 b off num size 0 := rfl

theorem rv2BNLoop1_succ (b : Buf) (off num size fuel : Nat) :
    rv2BNLoop1 b off num size (fuel + 1) =
      if num < 0x3fffffffffff then
        if off < b.len then
          if readByte b off < 0x80 then .ok (size + 1, num * 0x80 + readByte b off % 0x80)
          else rv2BNLoop1 b (off + 1) (num * 0x80 + readByte b off % 0x80 + 1) (size + 1) fuel
        else .error .bounds
      else rv2BNLoop2 b off num size (fuel + 1) := rfl

theorem sizeVarint2_small {n : Nat} (h : n ≤ 0x7f) : sizeVarint2 n = 1 := by
  unfold sizeVarint2
  rw [if_pos h]

theorem sizeVarint2_big {n : Nat} (h : 0x7f < n) :
    sizeVarint2 n = sizeVarint2 (n / 0x80 - 1) + 1 := by
  conv_lhs => unfold sizeVarint2
  rw [if_neg (by omega)]

theorem sizeVarint2_pos (n : Nat) : 1 ≤ sizeVarint2 n := by
  by_cases h : n ≤ 0x7f
  · rw [sizeVarint2_small h]
  · rw [sizeVarint2_big (by omega)]
    omega

theorem varint2Tmp_small {n : Nat} (h : n ≤ 0x7f) (len : Nat) :
    varint2Tmp n len = [n % 0x80 + (if len = 0 then 0 else 0x80)] := by
  unfold varint2Tmp
  rw [if_pos h]

theorem varint2Tmp_big {n : Nat} (h : 0x7f < n) (len : Nat) :
    varint2Tmp n len = (n % 0x80 + (if len = 0 then 0 else 0x80)) ::
      varint2Tmp (n / 0x80 - 1) (len + 1) := by
  conv_lhs => unfold varint2Tmp
  rw [if_neg (by omega)]

theorem varint2Tmp_length (n : Nat) : ∀ len, (varint2Tmp n len).length = sizeVarint2 n := by
  induction n using Nat.strong_induction_on with
  | _ n ih =>
    intro len
    by_cases h : n ≤ 0x7f
    · rw [varint2Tmp_small h, sizeVarint2_small h]
      rfl
    · rw [varint2Tmp_big (by omega), sizeVarint2_big (by omega), List.length_cons,
        ih _ (by omega)]

theorem varint2Tmp_shift (n : Nat) : ∀ k, varint2Tmp n (k + 1) = varint2Tmp n 1 := by
  induction n using Nat.strong_induction_on with
  | _ n ih =>
    intro k
    by_cases h : n ≤ 0x7f
    · rw [varint2Tmp_small h (k + 1), varint2Tmp_small h 1]
      norm_num
    · rw [varint2Tmp_big (show 0x7f < n by omega) (k + 1),
        varint2Tmp_big (show 0x7f < n by omega) 1,
        ih (n / 0x80 - 1) (by omega) (k + 1), ih (n / 0x80 - 1) (by omega) 1]
      norm_num

theorem varint2Tmp_lt256 (n : Nat) : ∀ len, ∀ x ∈ varint2Tmp n len, x < 256 := by
  induction n using Nat.strong_induction_on with
  | _ n ih =>
    intro len x hx
    by_cases h : n ≤ 0x7f
    · rw [varint2Tmp_small h] at hx
      simp only [List.mem_singleton] at hx
      have : n % 0x80 < 0x80 := Nat.mod_lt _ (by norm_num)
      split at hx <;> omega
    · rw [varint2Tmp_big (by omega)] at hx
      rcases List.mem_cons.mp hx with h1 | h2
      · have : n % 0x80 < 0x80 := Nat.mod_lt _ (by norm_num)
        split at h1 <;> omega
      · exact ih _ (by omega) _ _ h2

theorem getD_append_lt (A B : List Nat) : ∀ i, i < A.length → (A ++ B).getD i 0 = A.getD i 0 := by
  induction A with
  | nil => intro i h; simp at h
  | cons a as ih =>
    intro i h
    cases i with
    | zero => rfl
    | succ k =>
      simp only [List.cons_append, List.getD_cons_succ]
      exact ih k (by simpa using h)

theorem getD_append_len (A : List Nat) (x : Nat) : (A ++ [x]).getD A.length 0 = x := by
  induction A with
  | nil => rfl
  | cons a as ih =>
    simp only [List.cons_append, List.length_cons, List.getD_cons_succ]
    exact ih

/-- Decoding the reversal of a fully-flagged digit block `varint2Tmp m 1`
advances the accumulator `a` to `a * 0x80 ^ size + m + 1` and continues. -/
theorem rv2Go_flagged (b : Buf) (m : Nat) : ∀ (a s off fuel : Nat),
    off + sizeVarint2 m ≤ b.len →
    sizeVarint2 m ≤ fuel →
    (∀ i, i < sizeVarint2 m → readByte b (off + i) = (varint2Tmp m 1).reverse.getD i 0) →
    a * 0x80 ^ sizeVarint2 m + m + 1 ≤ 0x3fffffffffff →
    rv2Go b off a s fuel =
      rv2Go b (off + sizeVarint2 m) (a * 0x80 ^ sizeVarint2 m + m + 1) (s + sizeVarint2 m)
        (fuel - sizeVarint2 m) := by
  induction m using Nat.strong_induction_on with
  | _ m ih =>
    intro a s off fuel hb hfuel H hbound
    by_cases h : m ≤ 0x7f
    · have hsz : sizeVarint2 m = 1 := sizeVarint2_small h
      rw [hsz] at hb hfuel hbound ⊢
      rw [pow_one] at hbound ⊢
      have hbyte : readByte b off = m % 0x80 + 0x80 := by
        have h0 := H 0 (by omega)
        rw [Nat.add_zero] at h0
        rw [h0, varint2Tmp_small h]
        norm_num
      obtain ⟨f, rfl⟩ : ∃ f, fuel = f + 1 := ⟨fuel - 1, by omega⟩
      rw [rv2Go_succ, if_pos (by omega), if_pos (by omega), hbyte, if_neg (by omega)]
      have hacc : a * 0x80 + (m % 0x80 + 0x80) % 0x80 + 1 = a * 0x80 + m + 1 := by omega
      rw [hacc]
      norm_num
    · have hsz : sizeVarint2 m = sizeVarint2 (m / 0x80 - 1) + 1 := sizeVarint2_big (by omega)
      have hm : m = (m / 0x80 - 1 + 1) * 0x80 + m % 0x80 := by omega
      have hrl : (varint2Tmp (m / 0x80 - 1) 1).reverse.length = sizeVarint2 (m / 0x80 - 1) := by
        rw [List.length_reverse, varint2Tmp_length]
      have hrev : (varint2Tmp m 1).reverse =
          (varint2Tmp (m / 0x80 - 1) 1).reverse ++ [m % 0x80 + 0x80] := by
        rw [varint2Tmp_big (by omega) 1, varint2Tmp_shift, List.reverse_cons]
        norm_num
      have hIH := ih (m / 0x80 - 1) (by omega) a s off fuel
        (by omega)
        (by omega)
        (by
          intro i hi
          rw [H i (by omega), hrev, getD_append_lt _ _ i (by omega)])
        (by
          rw [hsz, pow_succ, ← mul_assoc] at hbound
          generalize a * 0x80 ^ sizeVarint2 (m / 0x80 - 1) = X at hbound ⊢
          omega)
      rw [hIH]
      obtain ⟨f2, hf2⟩ : ∃ f2, fuel - sizeVarint2 (m / 0x80 - 1) = f2 + 1 :=
        ⟨fuel - sizeVarint2 (m / 0x80 - 1) - 1, by omega⟩
      rw [hf2, rv2Go_succ]
      rw [if_pos (by omega)]
      rw [if_pos (by
        rw [hsz, pow_succ, ← mul_assoc] at hbound
        generalize a * 0x80 ^ sizeVarint2 (m / 0x80 - 1) = X at hbound ⊢
        omega)]
      have hbyte : readByte b (off + sizeVarint2 (m / 0x80 - 1)) = m % 0x80 + 0x80 := by
        rw [H _ (by omega), hrev, ← hrl, getD_append_len]
      rw [hbyte, if_neg (by omega)]
      have hacc : (a * 0x80 ^ sizeVarint2 (m / 0x80 - 1) + (m / 0x80 - 1) + 1) * 0x80 +
          (m % 0x80 + 0x80) % 0x80 + 1 = a * 0x80 ^ sizeVarint2 m + m + 1 := by
        rw [hsz, pow_succ, ← mul_assoc]
        generalize a * 0x80 ^ sizeVarint2 (m / 0x80 - 1) = X
        omega
      rw [hacc,
        show off + sizeVarint2 (m / 0x80 - 1) + 1 = off + sizeVarint2 m from by omega,
        show s + sizeVarint2 (m / 0x80 - 1) + 1 = s + sizeVarint2 m from by omega,
        show f2 = fuel - sizeVarint2 m from by omega]


/-- Varint-B round-trip: writing `n` and decoding it back returns
`(sizeVarint2 n, n)`, for every `n` below the threshold at which the
decoder's conservative range guard fires. -/
theorem writeVarint2_readVarint2 (b : Buf) (n off : Nat)
    (hn : n ≤ 9007199254740863) (hb : off + sizeVarint2 n ≤ b.len) :
    ∃ b1, writeVarint2 b n off = .ok (b1, off + sizeVarint2 n) ∧
      readVarint2 b1 off = .ok (sizeVarint2 n, n) := by
  have hlen : (varint2Tmp n 0).length = sizeVarint2 n := varint2Tmp_length n 0
  have hpos := sizeVarint2_pos n
  have hw : writeVarint2 b n off =
      .ok (writeList b (varint2Tmp n 0).reverse off, off + sizeVarint2 n) := by
    simp only [writeVarint2, hlen]
    rw [if_pos (by omega)]
  refine ⟨_, hw, ?_⟩
  have hb1len : (writeList b (varint2Tmp n 0).reverse off).len = b.len := writeList_len _ _ _
  have hrl : (varint2Tmp n 0).reverse.length = sizeVarint2 n := by
    rw [List.length_reverse, hlen]
  have hbytes : ∀ i, i < sizeVarint2 n →
      readByte (writeList b (varint2Tmp n 0).reverse off) (off + i) =
        (varint2Tmp n 0).reverse.getD i 0 := by
    intro i hi
    rw [readByte_writeList_get _ _ _ _ (by omega) (by omega)]
    have hmem : (varint2Tmp n 0).reverse.getD i 0 < 256 := by
      rw [List.getD_eq_getElem _ _ (by omega)]
      exact varint2Tmp_lt256 n 0 _ (List.mem_reverse.mp (List.getElem_mem _))
    omega
  unfold readVarint2
  rw [hb1len]
  by_cases hsmall : n ≤ 0x7f
  · have hsz : sizeVarint2 n = 1 := sizeVarint2_small hsmall
    have hbyte : readByte (writeList b (varint2Tmp n 0).reverse off) off = n := by
      have h0 := hbytes 0 (by omega)
      rw [Nat.add_zero] at h0
      rw [h0, varint2Tmp_small hsmall 0]
      norm_num
      omega
    obtain ⟨f, hf⟩ : ∃ f, b.len - off = f + 1 := ⟨b.len - off - 1, by omega⟩
    rw [hf, rv2Go_succ, if_pos (by omega), if_pos (by norm_num), hbyte, if_pos (by omega)]
    rw [hsz]
    exact congrArg Except.ok (by rw [Nat.mod_eq_of_lt (by omega : n < 0x80)]; norm_num)
  · have hsz : sizeVarint2 n = sizeVarint2 (n / 0x80 - 1) + 1 := sizeVarint2_big (by omega)
    have hrl2 : (varint2Tmp (n / 0x80 - 1) 1).reverse.length = sizeVarint2 (n / 0x80 - 1) := by
      rw [List.length_reverse, varint2Tmp_length]
    have hrev : (varint2Tmp n 0).reverse =
        (varint2Tmp (n / 0x80 - 1) 1).reverse ++ [n % 0x80] := by
      rw [varint2Tmp_big (show 0x7f < n by omega) 0, List.reverse_cons]
      norm_num
    have hF := rv2Go_flagged (writeList b (varint2Tmp n 0).reverse off) (n / 0x80 - 1)
      0 0 off (b.len - off)
      (by rw [hb1len]; omega)
      (by omega)
      (by
        intro i hi
        rw [hbytes i (by omega), hrev, getD_append_lt _ _ i (by omega)])
      (by omega)
    rw [hF]
    obtain ⟨f2, hf2⟩ : ∃ f2, b.len - off - sizeVarint2 (n / 0x80 - 1) = f2 + 1 :=
      ⟨b.len - off - sizeVarint2 (n / 0x80 - 1) - 1, by omega⟩
    rw [hf2, rv2Go_succ]
    rw [if_pos (by rw [hb1len]; omega)]
    rw [if_pos (by omega)]
    have hbyte : readByte (writeList b (varint2Tmp n 0).reverse off)
        (off + sizeVarint2 (n / 0x80 - 1)) = n % 0x80 := by
      rw [hbytes _ (by omega), hrev, ← hrl2, getD_append_len]
    rw [hbyte]
    rw [if_pos (by omega)]
    refine congrArg Except.ok ?_
    have h1 : 0 + sizeVarint2 (n / 0x80 - 1) + 1 = sizeVarint2 n := by omega
    have h2 : (0 * 0x80 ^ sizeVarint2 (n / 0x80 - 1) + (n / 0x80 - 1) + 1) * 0x80 +
        n % 0x80 % 0x80 = n := by
      generalize 0x80 ^ sizeVarint2 (n / 0x80 - 1) = K
      omega
    rw [h1, h2]

/-- Every value `readVarint2`'s loop returns is at most 2^53 - 1
(in fact at most 2^53 - 129, by the conservative guard). -/
theorem rv2Go_ok_le (b : Buf) : ∀ (fuel off num size s v : Nat),
    rv2Go b off num size fuel = .ok (s, v) → v ≤ 0x1fffffffffffff := by
  intro fuel
  induction fuel with
  | zero =>
    intro off num size s v h
    rw [rv2Go_zero] at h
    exact absurd h (by simp)
  | succ f ih =>
    intro off num size s v h
    rw [rv2Go_succ] at h
    by_cases h1 : off < b.len
    · rw [if_pos h1] at h
      by_cases h2 : num < 0x3fffffffffff
      · rw [if_pos h2] at h
        by_cases h3 : readByte b off < 0x80
        · rw [if_pos h3] at h
          simp only [Except.ok.injEq, Prod.mk.injEq] at h
          have hch : readByte b off % 0x80 < 0x80 := Nat.mod_lt _ (by norm_num)
          omega
        · rw [if_neg h3] at h
          exact ih _ _ _ _ _ h
      · rw [if_neg h2] at h
        exact absurd h (by simp)
    · rw [if_neg h1] at h
      exact absurd h (by simp)

/-- Every value the big-integer loop of `readVarint2BN` returns is at
most 2^71 - 1: the 64-bit guard is checked before the final shift. -/
theorem rv2BNLoop2_ok_le (b : Buf) : ∀ (fuel off num size s v : Nat),
    rv2BNLoop2 b off num size fuel = .ok (s, v) → v ≤ 0x7fffffffffffffffff := by
  intro fuel
  induction fuel with
  | zero =>
    intro off num size s v h
    rw [rv2BNLoop2_zero] at h
    exact absurd h (by simp)
  | succ f ih =>
    intro off num size s v h
    rw [rv2BNLoop2_succ] at h
    by_cases h1 : off < b.len
    · rw [if_pos h1] at h
      by_cases h2 : num < 0x10000000000000000
      · rw [if_pos h2] at h
        by_cases h3 : readByte b off < 0x80
        · rw [if_pos h3] at h
          simp only [Except.ok.injEq, Prod.mk.injEq] at h
          have hch : readByte b off % 0x80 < 0x80 := Nat.mod_lt _ (by norm_num)
          omega
        · rw [if_neg h3] at h
          exact ih _ _ _ _ _ h
      · rw [if_neg h2] at h
        exact absurd h (by simp)
    · rw [if_neg h1] at h
      exact absurd h (by simp)

theorem rv2BNLoop1_ok_le (b : Buf) : ∀ (fuel off num size s v : Nat),
    rv2BNLoop1 b off num size fuel = .ok (s, v) → v ≤ 0x7fffffffffffffffff := by
  intro fuel
  induction fuel with
  | zero =>
    intro off num size s v h
    rw [rv2BNLoop1_zero] at h
    by_cases h2 : num < 0x3fffffffffff
    · rw [if_pos h2] at h
      exact absurd h (by simp)
    · rw [if_neg h2] at h
      exact rv2BNLoop2_ok_le b 0 _ _ _ _ _ h
  | succ f ih =>
    intro off num size s v h
    rw [rv2BNLoop1_succ] at h
    by_cases h2 : num < 0x3fffffffffff
    · rw [if_pos h2] at h
      by_cases h1 : off < b.len
      · rw [if_pos h1] at h
        by_cases h3 : readByte b off < 0x80
        · rw [if_pos h3] at h
          simp only [Except.ok.injEq, Prod.mk.injEq] at h
          have hch : readByte b off % 0x80 < 0x80 := Nat.mod_lt _ (by norm_num)
          omega
        · rw [if_neg h3] at h
          exact ih _ _ _ _ _ h
      · rw [if_neg h1] at h
        exact absurd h (by simp)
    · rw [if_neg h2] at h
      exact rv2BNLoop2_ok_le b _ _ _ _ _ _ h


/-! ## Varint-A lemmas -/

theorem readVarint_small (b : Buf) (off : Nat) (hoff : off < b.len)
    (htag : readByte b off < 0xfd) : readVarint b off = .ok (1, readByte b off) := by
  unfold readVarint
  rw [if_pos hoff, if_neg (by omega), if_neg (by omega), if_neg (by omega)]

theorem readVarint_fd (b : Buf) (off : Nat) (htag : readByte b off = 0xfd)
    (hbnd : off + 3 ≤ b.len) :
    readVarint b off =
      if 0xfd ≤ varintPayload2 b off then .ok (3, varintPayload2 b off)
      else .error .range := by
  unfold readVarint
  rw [if_pos (by omega), htag, if_neg (by norm_num), if_neg (by norm_num), if_pos rfl,
    if_pos hbnd]
  rfl

theorem readVarint_fe (b : Buf) (off : Nat) (htag : readByte b off = 0xfe)
    (hbnd : off + 5 ≤ b.len) :
    readVarint b off =
      if 0xffff < varintPayload4 b off then .ok (5, varintPayload4 b off)
      else .error .range := by
  unfold readVarint
  rw [if_pos (by omega), htag, if_neg (by norm_num), if_pos rfl, if_pos hbnd]
  rfl

theorem readVarint_ff (b : Buf) (off : Nat) (htag : readByte b off = 0xff)
    (hbnd : off + 9 ≤ b.len) :
    readVarint b off =
      if readUInt32LE b (off + 1 + 4) < 0x200000 then
        if 0xffffffff < readUInt32LE b (off + 1 + 4) * 0x100000000 + readUInt32LE b (off + 1)
        then .ok (9, readUInt32LE b (off + 1 + 4) * 0x100000000 + readUInt32LE b (off + 1))
        else .error .range
      else .error .range := by
  unfold readVarint
  rw [if_pos (by omega), htag, if_pos rfl, if_pos hbnd]
  have hu : _readU64 b (off + 1) false false =
      if readUInt32LE b (off + 1 + 4) < 0x200000 then
        .ok (readUInt32LE b (off + 1 + 4) * 0x100000000 + readUInt32LE b (off + 1))
      else .error .range := rfl
  rw [hu]
  by_cases hC : readUInt32LE b (off + 1 + 4) < 0x200000
  · rw [if_pos hC, if_pos hC]
  · rw [if_neg hC, if_neg hC]

theorem readVarintBN_ff (b : Buf) (off : Nat) (htag : readByte b off = 0xff)
    (hbnd : off + 9 ≤ b.len) :
    readVarintBN b off =
      if 0xffffffff < varintPayload8 b off then .ok (9, varintPayload8 b off)
      else .error .range := by
  unfold readVarintBN
  rw [if_pos (by omega), htag, if_pos rfl, if_pos hbnd]
  rfl

theorem readVarintBN_delegate (b : Buf) (off : Nat) (hoff : off < b.len)
    (htag : readByte b off ≠ 0xff) : readVarintBN b off = readVarint b off := by
  unfold readVarintBN
  rw [if_pos hoff, if_neg htag]

theorem payload8_split (b : Buf) (off : Nat) :
    varintPayload8 b off =
      readUInt32LE b (off + 1) + readUInt32LE b (off + 1 + 4) * 0x100000000 := by
  unfold varintPayload8 readU64BN readUInt32LE
  rw [show off + 1 + 4 + 1 = off + 1 + 5 from by omega,
    show off + 1 + 4 + 2 = off + 1 + 6 from by omega,
    show off + 1 + 4 + 3 = off + 1 + 7 from by omega]
  ring


/-- A truncated Varint-B input: when every byte from `off` to the end
of the buffer carries the continuation flag, the `readVarint2` loop
never returns a value — it runs off the end (BoundsFault) unless the
conservative accumulator guard fires first (RangeFault). -/
theorem rv2Go_all_flagged (b : Buf) : ∀ (fuel off num size : Nat),
    (∀ j, off ≤ j → j < b.len → 0x80 ≤ readByte b j) →
    rv2Go b off num size fuel = .error .bounds ∨
      rv2Go b off num size fuel = .error .range := by
  intro fuel
  induction fuel with
  | zero =>
    intro off num size hfl
    left
    exact rv2Go_zero b off num size
  | succ f ih =>
    intro off num size hfl
    rw [rv2Go_succ]
    by_cases h1 : off < b.len
    · rw [if_pos h1]
      by_cases h2 : num < 0x3fffffffffff
      · rw [if_pos h2, if_neg (by have := hfl off (Nat.le_refl off) h1; omega)]
        exact ih (off + 1) _ _ (fun j hj1 hj2 => hfl j (by omega) hj2)
      · rw [if_neg h2]
        right
        rfl
    · rw [if_neg h1]
      left
      rfl

/-- As `rv2Go_all_flagged`, for the big-integer loop of
`readVarint2BN`. -/
theorem rv2BNLoop2_all_flagged (b : Buf) : ∀ (fuel off num size : Nat),
    (∀ j, off ≤ j → j < b.len → 0x80 ≤ readByte b j) →
    rv2BNLoop2 b off num size fuel = .error .bounds ∨
      rv2BNLoop2 b off num size fuel = .error .range := by
  intro fuel
  induction fuel with
  | zero =>
    intro off num size hfl
    left
    exact rv2BNLoop2_zero b off num size
  | succ f ih =>
    intro off num size hfl
    rw [rv2BNLoop2_succ]
    by_cases h1 : off < b.len
    · rw [if_pos h1]
      by_cases h2 : num < 0x10000000000000000
      · rw [if_pos h2, if_neg (by have := hfl off (Nat.le_refl off) h1; omega)]
        exact ih (off + 1) _ _ (fun j hj1 hj2 => hfl j (by omega) hj2)
      · rw [if_neg h2]
        right
        rfl
    · rw [if_neg h1]
      left
      rfl

/-- As `rv2Go_all_flagged`, for the native loop of `readVarint2BN`
(which may hand off to the big-integer loop). -/
theorem rv2BNLoop1_all_flagged (b : Buf) : ∀ (fuel off num size : Nat),
    (∀ j, off ≤ j → j < b.len → 0x80 ≤ readByte b j) →
    rv2BNLoop1 b off num size fuel = .error .bounds ∨
      rv2BNLoop1 b off num size fuel = .error .range := by
  intro fuel
  induction fuel with
  | zero =>
    intro off num size hfl
    rw [rv2BNLoop1_zero]
    by_cases h2 : num < 0x3fffffffffff
    · rw [if_pos h2]
      left
      rfl
    · rw [if_neg h2]
      exact rv2BNLoop2_all_flagged b 0 off num size hfl
  | succ f ih =>
    intro off num size hfl
    rw [rv2BNLoop1_succ]
    by_cases h2 : num < 0x3fffffffffff
    · rw [if_pos h2]
      by_cases h1 : off < b.len
      · rw [if_pos h1, if_neg (by have := hfl off (Nat.le_refl off) h1; omega)]
        exact ih (off + 1) _ _ (fun j hj1 hj2 => hfl j (by omega) hj2)
      · rw [if_neg h1]
        left
        rfl
    · rw [if_neg h2]
      exact rv2BNLoop2_all_flagged b (f + 1) off num size hfl

/-! ## Claim theorems -/

/-- C1: the big-integer Varint-B paths do NOT delegate to the native
Varint-B paths on small magnitudes: `sizeVarint2BN 200` returns the
compact-size length 1 (it calls `sizeVarint`), while `sizeVarint2 200`
is 2; and `writeVarint2BN` of a small number always raises the bounds
assert (the `off` argument is dropped in the delegated call), while
`writeVarint2` writes one byte and returns offset 1. -/
theorem c1_varint2BN_delegation_bug :
    sizeVarint2BN 200 = 1 ∧ sizeVarint2 200 = 2 ∧
    writeVarint2BN (mkBuf (List.replicate 20 0)) 5 0 = .error .bounds ∧
    retOff (writeVarint2 (mkBuf (List.replicate 20 0)) 5 0) = some 1 := by
  refine ⟨rfl, by simp [sizeVarint2], by simp [writeVarint2BN], ?_⟩
  simp [writeVarint2, varint2Tmp, retOff, mkBuf]

/-- C2 counterexample: with first byte `0xff` and 8-byte payload 2^53
(greater than `0xffffffff`, so minimal), the claim says the decoded
pair is returned, but `readVarint` raises the safe-range fault from
`readU64`; only `readVarintBN` returns the pair. -/
theorem c2_counterexample :
    readVarint (mkBuf [0xff, 0, 0, 0, 0, 0, 0, 0x20, 0]) 0 = .error .range ∧
    readVarintBN (mkBuf [0xff, 0, 0, 0, 0, 0, 0, 0x20, 0]) 0 = .ok (9, 9007199254740992) := by
  exact ⟨by decide, by decide⟩

/-- C2 (amended): Varint-A decoding rejects every non-minimal encoding
with a RangeFault and otherwise returns the decoded pair, except that
`readVarint` (not `readVarintBN`) also raises a RangeFault when the
first byte is `0xff` and the 8-byte payload is 2^53 or greater. -/
theorem c2_varintA_minimality (b : Buf) (off : Nat) :
    (readByte b off = 0xfd → off + 3 ≤ b.len →
      (varintPayload2 b off < 0xfd →
        readVarint b off = .error .range ∧ readVarintBN b off = .error .range) ∧
      (0xfd ≤ varintPayload2 b off →
        readVarint b off = .ok (3, varintPayload2 b off) ∧
        readVarintBN b off = .ok (3, varintPayload2 b off))) ∧
    (readByte b off = 0xfe → off + 5 ≤ b.len →
      (varintPayload4 b off ≤ 0xffff →
        readVarint b off = .error .range ∧ readVarintBN b off = .error .range) ∧
      (0xffff < varintPayload4 b off →
        readVarint b off = .ok (5, varintPayload4 b off) ∧
        readVarintBN b off = .ok (5, varintPayload4 b off))) ∧
    (readByte b off = 0xff → off + 9 ≤ b.len →
      (varintPayload8 b off ≤ 0xffffffff →
        readVarint b off = .error .range ∧ readVarintBN b off = .error .range) ∧
      (0xffffffff < varintPayload8 b off →
        readVarintBN b off = .ok (9, varintPayload8 b off) ∧
        (varintPayload8 b off ≤ 0x1fffffffffffff →
          readVarint b off = .ok (9, varintPayload8 b off)) ∧
        (0x1fffffffffffff < varintPayload8 b off →
          readVarint b off = .error .range))) ∧
    (off < b.len → readByte b off < 0xfd →
      readVarint b off = .ok (1, readByte b off) ∧
      readVarintBN b off = .ok (1, readByte b off)) := by
  refine ⟨?_, ?_, ?_, ?_⟩
  · intro htag hbnd
    have hd := readVarintBN_delegate b off (by omega) (by rw [htag]; norm_num)
    constructor
    · intro hlt
      rw [readVarint_fd b off htag hbnd, if_neg (by omega), hd,
        readVarint_fd b off htag hbnd, if_neg (by omega)]
      exact ⟨rfl, rfl⟩
    · intro hge
      rw [readVarint_fd b off htag hbnd, if_pos hge, hd,
        readVarint_fd b off htag hbnd, if_pos hge]
      exact ⟨rfl, rfl⟩
  · intro htag hbnd
    have hd := readVarintBN_delegate b off (by omega) (by rw [htag]; norm_num)
    constructor
    · intro hle
      rw [readVarint_fe b off htag hbnd, if_neg (by omega), hd,
        readVarint_fe b off htag hbnd, if_neg (by omega)]
      exact ⟨rfl, rfl⟩
    · intro hgt
      rw [readVarint_fe b off htag hbnd, if_pos hgt, hd,
        readVarint_fe b off htag hbnd, if_pos hgt]
      exact ⟨rfl, rfl⟩
  · intro htag hbnd
    have hsplit := payload8_split b off
    have hlo := readUInt32LE_lt b (off + 1)
    have hhi := readUInt32LE_lt b (off + 1 + 4)
    constructor
    · intro hle
      constructor
      · rw [readVarint_ff b off htag hbnd, if_pos (by omega), if_neg (by omega)]
      · rw [readVarintBN_ff b off htag hbnd, if_neg (by omega)]
    · intro hgt
      refine ⟨?_, ?_, ?_⟩
      · rw [readVarintBN_ff b off htag hbnd, if_pos (by omega)]
      · intro hsafe
        rw [readVarint_ff b off htag hbnd, if_pos (by omega), if_pos (by omega)]
        have hv : readUInt32LE b (off + 1 + 4) * 0x100000000 + readUInt32LE b (off + 1) =
            varintPayload8 b off := by omega
        rw [hv]
      · intro hbig
        rw [readVarint_ff b off htag hbnd, if_neg (by omega)]
  · intro hoff htag
    rw [readVarint_small b off hoff htag,
      readVarintBN_delegate b off hoff (by omega),
      readVarint_small b off hoff htag]
    exact ⟨rfl, rfl⟩

/-- C2 witness: the spec's own example, tag `0xfd` with payload
`0x00fc`, is rejected with a RangeFault by both decoders. -/
theorem c2_witness :
    varintPayload2 (mkBuf [0xfd, 0xfc, 0x00]) 0 < 0xfd ∧
    readVarint (mkBuf [0xfd, 0xfc, 0x00]) 0 = .error .range ∧
    readVarintBN (mkBuf [0xfd, 0xfc, 0x00]) 0 = .error .range := by
  have h := ((c2_varintA_minimality (mkBuf [0xfd, 0xfc, 0x00]) 0).1 (by decide)
    (by decide)).1 (by decide)
  exact ⟨by decide, h.1, h.2⟩

/-- C3: 64-bit fixed-width round-trips, both byte orders: reading back
what was written recovers the value, and the writer returns `off + 8`;
unsigned values up to 2^53 - 1, signed values of magnitude up to
2^53 - 1. -/
theorem c3_fixed64_roundtrip (b : Buf) (off : Nat) (n : Nat) (m : Int)
    (hb : off + 8 ≤ b.len) :
    (n ≤ 0x1fffffffffffff →
      (∃ b1, writeU64 b (n : Int) off = .ok (b1, off + 8) ∧ readU64 b1 off = .ok n) ∧
      (∃ b2, writeU64BE b (n : Int) off = .ok (b2, off + 8) ∧ readU64BE b2 off = .ok n)) ∧
    (-0x1fffffffffffff ≤ m → m ≤ 0x1fffffffffffff →
      (∃ b3, write64 b m off = .ok (b3, off + 8) ∧ read64 b3 off = .ok m) ∧
      (∃ b4, write64BE b m off = .ok (b4, off + 8) ∧ read64BE b4 off = .ok m)) := by
  constructor
  · intro hn
    exact ⟨u64_roundtrip false b off n hb hn, u64_roundtrip true b off n hb hn⟩
  · intro h1 h2
    exact ⟨i64_roundtrip false b off m hb h1 h2, i64_roundtrip true b off m hb h1 h2⟩

/-- C3 witness: round-trips of `7` (unsigned) and `-1` (signed,
little-endian, the spec's all-`0xff` scenario) on an 8-byte buffer. -/
theorem c3_witness :
    (0 : Nat) + 8 ≤ (mkBuf (List.replicate 8 0)).len ∧
    (∃ b1, writeU64 (mkBuf (List.replicate 8 0)) ((7 : Nat) : Int) 0 = .ok (b1, 0 + 8) ∧
      readU64 b1 0 = .ok 7) ∧
    (∃ b3, write64 (mkBuf (List.replicate 8 0)) (-1) 0 = .ok (b3, 0 + 8) ∧
      read64 b3 0 = .ok (-1)) := by
  have h := c3_fixed64_roundtrip (mkBuf (List.replicate 8 0)) 0 7 (-1) (by simp [mkBuf])
  exact ⟨by simp [mkBuf], (h.1 (by norm_num)).1, (h.2 (by norm_num) (by norm_num)).1⟩

/-- C4: Varint-B round-trip for `n` in `[0, 10^6]` (which covers the
boundary values 0, 127, 128, 16511, 16512): `readVarint2` after
`writeVarint2` returns `(sizeVarint2 n, n)`, and `writeVarint2`
returns `off + sizeVarint2 n`. -/
theorem c4_varint2_roundtrip (b : Buf) (n off : Nat) (hn : n ≤ 1000000)
    (hb : off + sizeVarint2 n ≤ b.len) :
    ∃ b1, writeVarint2 b n off = .ok (b1, off + sizeVarint2 n) ∧
      readVarint2 b1 off = .ok (sizeVarint2 n, n) :=
  writeVarint2_readVarint2 b n off (by omega) hb

/-- C4 witness: the round-trip at `n = 300` on a 4-byte buffer. -/
theorem c4_witness :
    (300 : Nat) ≤ 1000000 ∧ 0 + sizeVarint2 300 ≤ (mkBuf [0, 0, 0, 0]).len ∧
    (∃ b1, writeVarint2 (mkBuf [0, 0, 0, 0]) 300 0 = .ok (b1, 0 + sizeVarint2 300) ∧
      readVarint2 b1 0 = .ok (sizeVarint2 300, 300)) := by
  have hs : sizeVarint2 300 = 2 := by simp [sizeVarint2]
  refine ⟨by norm_num, by rw [hs]; simp [mkBuf], ?_⟩
  exact c4_varint2_roundtrip (mkBuf [0, 0, 0, 0]) 300 0 (by norm_num)
    (by rw [hs]; simp [mkBuf])

/-- C5: the big-integer Varint-B decoder does NOT enforce a hard
64-bit ceiling: on nine `0xff` bytes followed by a terminal `0x00` it
returns the value 1189887617730934226944, which exceeds 2^64 - 1 (the
guard `num.bitLength() <= 64` runs before the shift, so a terminal
byte can push past 64 bits undetected). -/
theorem c5_readVarint2BN_overflow :
    readVarint2BN (mkBuf [255, 255, 255, 255, 255, 255, 255, 255, 255, 0]) 0 =
      .ok (10, 1189887617730934226944) ∧
    0xffffffffffffffff < 1189887617730934226944 := by
  exact ⟨by decide, by norm_num⟩

/-- C6 counterexample: `writeU64` into an 8-byte buffer at offset 1
(a 9-byte access) does not raise a BoundsFault; it returns offset 9,
silently dropping the out-of-range final byte. -/
theorem c6_counterexample :
    retOff (writeU64 (mkBuf (List.replicate 8 0)) 5 1) = some 9 := by
  decide

/-- C6 (amended): decoding at an offset at or beyond the buffer raises
a BoundsFault in all four decoders; a truncated Varint-A input — a tag
`0xfd`, `0xfe` or `0xff` whose declared size 3, 5 or 9 overruns the
buffer — raises a BoundsFault in `readVarint` and `readVarintBN`; a
truncated Varint-B input (every remaining byte carries the
continuation flag) never yields a value from `readVarint2` or
`readVarint2BN`: they raise a BoundsFault, unless the accumulator
guard fires first and raises a RangeFault — in particular a single
trailing continuation byte always gives a BoundsFault; `writeVarint2`
raises a BoundsFault when `off + sizeVarint2 num` exceeds
`dst.len + 1` (for `num` in the safe-integer domain); but
`writeU64`/`write64` and `writeVarint` perform no bounds checks at
all: they return the advanced offset and out-of-range byte stores are
silently dropped. -/
theorem c6_bounds_behavior (b : Buf) (off num n : Nat) :
    (b.len ≤ off →
      readVarint b off = .error .bounds ∧ readVarintBN b off = .error .bounds ∧
      readVarint2 b off = .error .bounds ∧ readVarint2BN b off = .error .bounds) ∧
    (off < b.len → readByte b off = 0xfd → b.len < off + 3 →
      readVarint b off = .error .bounds ∧ readVarintBN b off = .error .bounds) ∧
    (off < b.len → readByte b off = 0xfe → b.len < off + 5 →
      readVarint b off = .error .bounds ∧ readVarintBN b off = .error .bounds) ∧
    (off < b.len → readByte b off = 0xff → b.len < off + 9 →
      readVarint b off = .error .bounds ∧ readVarintBN b off = .error .bounds) ∧
    ((∀ j, off ≤ j → j < b.len → 0x80 ≤ readByte b j) →
      (readVarint2 b off = .error .bounds ∨ readVarint2 b off = .error .range) ∧
      (readVarint2BN b off = .error .bounds ∨ readVarint2BN b off = .error .range)) ∧
    (off + 1 = b.len → 0x80 ≤ readByte b off →
      readVarint2 b off = .error .bounds ∧ readVarint2BN b off = .error .bounds) ∧
    (num ≤ 0x1fffffffffffff → b.len + 1 < off + sizeVarint2 num →
      writeVarint2 b num off = .error .bounds) ∧
    (n ≤ 0x1fffffffffffff → ∃ b1, writeU64 b (n : Int) off = .ok (b1, off + 8)) ∧
    (num ≤ 0xffffffff → ∃ b1, writeVarint b num off = .ok (b1, off + sizeVarint num)) := by
  refine ⟨?_, ?_, ?_, ?_, ?_, ?_, ?_, ?_, ?_⟩
  · intro hoff
    refine ⟨?_, ?_, ?_, ?_⟩
    · unfold readVarint
      rw [if_neg (by omega)]
    · unfold readVarintBN
      rw [if_neg (by omega)]
    · unfold readVarint2
      rw [show b.len - off = 0 from by omega, rv2Go_zero]
    · unfold readVarint2BN
      rw [show b.len - off = 0 from by omega, rv2BNLoop1_zero, if_pos (by norm_num)]
  · intro hoff htag htr
    constructor
    · unfold readVarint
      rw [if_pos hoff, htag, if_neg (by norm_num), if_neg (by norm_num), if_pos rfl,
        if_neg (by omega)]
    · rw [readVarintBN_delegate b off hoff (by rw [htag]; norm_num)]
      unfold readVarint
      rw [if_pos hoff, htag, if_neg (by norm_num), if_neg (by norm_num), if_pos rfl,
        if_neg (by omega)]
  · intro hoff htag htr
    constructor
    · unfold readVarint
      rw [if_pos hoff, htag, if_neg (by norm_num), if_pos rfl, if_neg (by omega)]
    · rw [readVarintBN_delegate b off hoff (by rw [htag]; norm_num)]
      unfold readVarint
      rw [if_pos hoff, htag, if_neg (by norm_num), if_pos rfl, if_neg (by omega)]
  · intro hoff htag htr
    constructor
    · unfold readVarint
      rw [if_pos hoff, htag, if_pos rfl, if_neg (by omega)]
    · unfold readVarintBN
      rw [if_pos hoff, htag, if_pos rfl, if_neg (by omega)]
  · intro hfl
    constructor
    · unfold readVarint2
      exact rv2Go_all_flagged b (b.len - off) off 0 0 hfl
    · unfold readVarint2BN
      exact rv2BNLoop1_all_flagged b (b.len - off) off 0 0 hfl
  · intro hoff hflag
    constructor
    · unfold readVarint2
      rw [show b.len - off = 0 + 1 from by omega, rv2Go_succ, if_pos (by omega),
        if_pos (by norm_num), if_neg (by omega), rv2Go_zero]
    · unfold readVarint2BN
      rw [show b.len - off = 0 + 1 from by omega, rv2BNLoop1_succ, if_pos (by norm_num),
        if_pos (by omega), if_neg (by omega), rv2BNLoop1_zero, if_pos (by omega)]
  · intro hsafe hbig
    have hpos := sizeVarint2_pos num
    simp only [writeVarint2, varint2Tmp_length]
    rw [if_neg (by omega)]
  · intro hn
    exact ⟨_, write64_nonneg_le b n off hn⟩
  · intro hnum
    by_cases h1 : num < 0xfd
    · refine ⟨writeByte b off (num % 0x100), ?_⟩
      unfold writeVarint sizeVarint
      rw [if_pos h1, if_pos h1]
    · by_cases h2 : num ≤ 0xffff
      · refine ⟨writeList b [0xfd, num % 0x100, num / 0x100 % 0x100] off, ?_⟩
        unfold writeVarint sizeVarint
        rw [if_neg h1, if_neg h1, if_pos h2, if_pos h2]
      · refine ⟨writeList b [0xfe, num % 0x100, num / 0x100 % 0x100, num / 0x10000 % 0x100,
          num / 0x1000000] off, ?_⟩
        unfold writeVarint sizeVarint
        rw [if_neg h1, if_neg h1, if_neg h2, if_neg h2, if_pos hnum, if_pos hnum]

/-- C6 witness: the empty buffer bounds-faults in both families, a
3-byte buffer under tag `0xfe` (declared size 5) bounds-faults, and a
buffer of two continuation bytes never yields a Varint-B value. -/
theorem c6_witness :
    (mkBuf ([] : List Nat)).len ≤ 0 ∧
    readVarint (mkBuf []) 0 = .error .bounds ∧
    readVarint2 (mkBuf []) 0 = .error .bounds ∧
    readVarint (mkBuf [0xfe, 1, 2]) 0 = .error .bounds ∧
    (readVarint2 (mkBuf [0x80, 0x80]) 0 = .error .bounds ∨
      readVarint2 (mkBuf [0x80, 0x80]) 0 = .error .range) := by
  have h1 := (c6_bounds_behavior (mkBuf []) 0 0 0).1 (by simp [mkBuf])
  have h2 := (c6_bounds_behavior (mkBuf [0xfe, 1, 2]) 0 0 0).2.2.1 (by simp [mkBuf])
    (by decide) (by simp [mkBuf])
  have h3 := ((c6_bounds_behavior (mkBuf [0x80, 0x80]) 0 0 0).2.2.2.2.1 (by
    intro j hj0 hj2
    simp only [mkBuf, List.length_cons, List.length_nil] at hj2
    have : j = 0 ∨ j = 1 := by omega
    rcases this with h | h <;> subst h <;> decide)).1
  exact ⟨by simp [mkBuf], h1.1, h1.2.2.1, h2.1, h3⟩

/-- C7 counterexample: on the bytes `8e fe fe fe fe fe fe 00` the
accumulator reaches exactly 2^46 - 1, so `readVarint2` raises a
RangeFault even though the accumulated value would only reach
2^53 - 128, within the safe-integer limit (as the decoder described by
the claim, `readVarint2SpecGuard`, shows by returning it). -/
theorem c7_counterexample :
    readVarint2 (mkBuf [0x8e, 0xfe, 0xfe, 0xfe, 0xfe, 0xfe, 0xfe, 0x00]) 0 =
      .error .range ∧
    readVarint2SpecGuard (mkBuf [0x8e, 0xfe, 0xfe, 0xfe, 0xfe, 0xfe, 0xfe, 0x00]) 0 =
      .ok (8, 9007199254740864) ∧
    9007199254740864 ≤ 0x1fffffffffffff := by
  exact ⟨by decide, by decide, by norm_num⟩

/-- C7 (amended): `readVarint2` guards each accumulation step with the
conservative check `num < 0x3fffffffffff`, which can raise a
RangeFault even when the accumulated value would stay within
2^53 - 1; every value it successfully returns satisfies
`0 ≤ value ≤ 2^53 - 1`. -/
theorem c7_readVarint2_bound (b : Buf) (off s v : Nat)
    (h : readVarint2 b off = .ok (s, v)) : v ≤ 0x1fffffffffffff := by
  unfold readVarint2 at h
  exact rv2Go_ok_le b _ _ _ _ _ _ h

/-- C7 witness: decoding the single byte `5` returns value 5, which
the bound theorem caps at 2^53 - 1. -/
theorem c7_witness :
    readVarint2 (mkBuf [5]) 0 = .ok (1, 5) ∧ (5 : Nat) ≤ 0x1fffffffffffff :=
  ⟨by decide, c7_readVarint2_bound (mkBuf [5]) 0 1 5 (by decide)⟩

/-- C8: `readU53` and `readU53BE` never raise the safe-range fault:
the high half is masked to 21 bits before the assertion, and the
returned value `(hi mod 2^21) * 2^32 + lo` is always at most
2^53 - 1, silently aliasing larger 64-bit values. -/
theorem c8_readU53_mask (b : Buf) (off : Nat) (_hb : off + 8 ≤ b.len) :
    readU53 b off =
      .ok (readUInt32LE b (off + 4) % 0x200000 * 0x100000000 + readUInt32LE b off) ∧
    readUInt32LE b (off + 4) % 0x200000 * 0x100000000 + readUInt32LE b off
      ≤ 0x1fffffffffffff ∧
    readU53BE b off =
      .ok (readUInt32BE b off % 0x200000 * 0x100000000 + readUInt32BE b (off + 4)) ∧
    readUInt32BE b off % 0x200000 * 0x100000000 + readUInt32BE b (off + 4)
      ≤ 0x1fffffffffffff := by
  have hle := readUInt32LE_lt b off
  have hbe := readUInt32BE_lt b (off + 4)
  have h1 : _readU64 b off true false =
      if readUInt32LE b (off + 4) % 0x200000 < 0x200000 then
        .ok (readUInt32LE b (off + 4) % 0x200000 * 0x100000000 + readUInt32LE b off)
      else .error .range := rfl
  have h2 : _readU64 b off true true =
      if readUInt32BE b off % 0x200000 < 0x200000 then
        .ok (readUInt32BE b off % 0x200000 * 0x100000000 + readUInt32BE b (off + 4))
      else .error .range := rfl
  refine ⟨?_, by omega, ?_, by omega⟩
  · unfold readU53
    rw [h1, if_pos (Nat.mod_lt _ (by norm_num))]
  · unfold readU53BE
    rw [h2, if_pos (Nat.mod_lt _ (by norm_num))]

/-- C8 witness: on an all-`0xff` buffer `readU53` returns the masked
value rather than faulting. -/
theorem c8_witness :
    (0 : Nat) + 8 ≤ (mkBuf (List.replicate 8 255)).len ∧
    readU53 (mkBuf (List.replicate 8 255)) 0 =
      .ok (readUInt32LE (mkBuf (List.replicate 8 255)) (0 + 4) % 0x200000 * 0x100000000 +
        readUInt32LE (mkBuf (List.replicate 8 255)) 0) := by
  exact ⟨by simp [mkBuf], (c8_readU53_mask (mkBuf (List.replicate 8 255)) 0
    (by simp [mkBuf])).1⟩

/-- C9: `writeVarint2BN` mutates its big-integer argument on the
big path: writing `2^54` leaves the caller's `num` holding 30 (the
final state of the destructive shift/subtract loop), not `2^54`. -/
theorem c9_writeVarint2BN_mutates :
    retNum (writeVarint2BN (mkBuf (List.replicate 20 0)) (2 ^ 54) 0) = some 30 ∧
    (30 : Nat) ≠ 2 ^ 54 := by
  constructor
  · have h : writeVarint2BN (mkBuf (List.replicate 20 0)) (2 ^ 54) 0 =
        .ok (writeList (mkBuf (List.replicate 20 0)) ((wv2BNLoop (2 ^ 54) 0).1.reverse) 0,
          (8, 30)) := by
      simp [writeVarint2BN, wv2BNLoop, mkBuf]
    rw [h]
    rfl
  · norm_num

/-- C10: `skipVarint` returns 9, 5, 3 or 1 purely from the tag byte,
with only the `off < data.length` check. -/
theorem c10_skipVarint_dispatch (b : Buf) (off : Nat) (hoff : off < b.len) :
    skipVarint b off =
      .ok (if readByte b off = 0xff then 9
           else if readByte b off = 0xfe then 5
           else if readByte b off = 0xfd then 3
           else 1) := by
  unfold skipVarint
  rw [if_pos hoff]

/-- C10 witness: on a 1-byte buffer holding `0xff`, `skipVarint`
returns 9 without any fault, although only one byte remains. -/
theorem c10_witness :
    (0 : Nat) < (mkBuf [255]).len ∧ skipVarint (mkBuf [255]) 0 = .ok 9 := by
  refine ⟨by simp [mkBuf], ?_⟩
  have h := c10_skipVarint_dispatch (mkBuf [255]) 0 (by simp [mkBuf])
  simpa [readByte, mkBuf] using h

end Encoding
